import Mathlib

/-!
Verification of the CatmullRomSpline geometry engine
(src/common/math/geometry/src/spline/catmull_rom_spline.cpp).

The source stores scalars as C++ doubles; the embedding models them as elements
of an arbitrary linear ordered field `α` (idealized exact arithmetic), so every
theorem below holds in particular at `α = ℝ` and every witness can be evaluated
at `α = ℚ`.  The companion classes `HermiteCurve`, `LineSegment` and the helper
`getLineSegments` are declared and called by the spline source but their own
implementation files are not part of the sources at hand; the definitions that
stand in for them are marked `Modelled from the spec:` and follow the
specification text, while everything else is translated directly from
catmull_rom_spline.cpp.
-/

set_option linter.all false

/-- A 3D point mirroring `geometry_msgs::msg::Point` (double fields x, y, z). -/
@[ext]
structure Point3 (α : Type*) where
  x : α
  y : α
  z : α

instance {α : Type*} [Zero α] : Inhabited (Point3 α) := ⟨⟨0, 0, 0⟩⟩

/-- A 3D vector mirroring `geometry_msgs::msg::Vector3`. -/
structure Vec3 (α : Type*) where
  x : α
  y : α
  z : α

instance {α : Type*} [Zero α] : Inhabited (Vec3 α) := ⟨⟨0, 0, 0⟩⟩

/-- One cubic Hermite segment: 12 coefficients, 4 per axis, written `aX bX cX dX`
for the cubic, quadratic, linear and constant term of x(t), and likewise for y, z.
(The source names them `ax bx cx dx ay by ...`; `by` is reserved in Lean, hence the
capitalised axis letter.) -/
structure HermiteCurve (α : Type*) where
  aX : α
  bX : α
  cX : α
  dX : α
  aY : α
  bY : α
  cY : α
  dY : α
  aZ : α
  bZ : α
  cZ : α
  dZ : α

instance {α : Type*} [Zero α] : Inhabited (HermiteCurve α) :=
  ⟨⟨0, 0, 0, 0, 0, 0, 0, 0, 0, 0, 0, 0⟩⟩

/-- A 2-endpoint straight segment (`LineSegment`). -/
structure LineSegment (α : Type*) where
  p0 : Point3 α
  p1 : Point3 α

instance {α : Type*} [Zero α] : Inhabited (LineSegment α) := ⟨⟨default, default⟩⟩

variable {α : Type*} [LinearOrderedField α]

/-- Modelled from the spec: `HermiteCurve::getPoint` is not among the sources at
hand; per spec §3/§4.2 the curve "owns 12 scalar coefficients (4 per axis: cubic,
quadratic, linear, constant terms) defining x(t), y(t), z(t)", and evaluation
"proceeds directly" on the polynomial, so the point at parameter t is the per-axis
cubic value.  (The boolean flag of the source signature does not change the
polynomial evaluation per the spec's wording and is dropped here.) -/
def HermiteCurve.getPoint (c : HermiteCurve α) (t : α) : Point3 α :=
  ⟨c.aX * t ^ 3 + c.bX * t ^ 2 + c.cX * t + c.dX,
   c.aY * t ^ 3 + c.bY * t ^ 2 + c.cY * t + c.dY,
   c.aZ * t ^ 3 + c.bZ * t ^ 2 + c.cZ * t + c.dZ⟩

/-- Modelled from the spec: `HermiteCurve::getTangentVector` is not among the
sources at hand; spec §4.2 defines the tangent as the first derivative of the
per-axis cubic. -/
def HermiteCurve.getTangentVector (c : HermiteCurve α) (t : α) : Vec3 α :=
  ⟨3 * c.aX * t ^ 2 + 2 * c.bX * t + c.cX,
   3 * c.aY * t ^ 2 + 2 * c.bY * t + c.cY,
   3 * c.aZ * t ^ 2 + 2 * c.bZ * t + c.cZ⟩

/-- Modelled from the spec: `HermiteCurve::getNormalVector` is not among the
sources at hand; spec §4.2 defines the normal as the tangent's "perpendicular
(2D rotation by +90°)". -/
def HermiteCurve.getNormalVector (c : HermiteCurve α) (t : α) : Vec3 α :=
  ⟨-(c.getTangentVector t).y, (c.getTangentVector t).x, 0⟩

/-- Control point lookup used while building segments (indexing `control_points[i]`
of the constructor; every access the constructor makes is in range, so the default
value is never produced for the inputs the theorems quantify over). -/
def ctrlPt (cps : List (Point3 α)) (i : ℕ) : Point3 α :=
  cps.getD i default

/-- One Hermite segment of the constructor `CatmullRomSpline::CatmullRomSpline`
(catmull_rom_spline.cpp lines 136-224): the branch `i = 0` is the first segment's
one-sided rule, `i = n - 1` (with `n = control_points.size() - 1`) the last
segment's, and the remaining branch the interior central-difference rule; every
coefficient is scaled by one half exactly as in the source. -/
def buildCurve (cps : List (Point3 α)) (i : ℕ) : HermiteCurve α :=
  let n := cps.length - 1
  let p := fun j => ctrlPt cps j
  if i = 0 then
    { aX := 0 * (1 / 2 : α)
      bX := ((p 0).x - 2 * (p 1).x + (p 2).x) * (1 / 2)
      cX := (-3 * (p 0).x + 4 * (p 1).x - (p 2).x) * (1 / 2)
      dX := (2 * (p 0).x) * (1 / 2)
      aY := 0 * (1 / 2 : α)
      bY := ((p 0).y - 2 * (p 1).y + (p 2).y) * (1 / 2)
      cY := (-3 * (p 0).y + 4 * (p 1).y - (p 2).y) * (1 / 2)
      dY := (2 * (p 0).y) * (1 / 2)
      aZ := 0 * (1 / 2 : α)
      bZ := ((p 0).z - 2 * (p 1).z + (p 2).z) * (1 / 2)
      cZ := (-3 * (p 0).z + 4 * (p 1).z - (p 2).z) * (1 / 2)
      dZ := (2 * (p 0).z) * (1 / 2) }
  else if i = n - 1 then
    { aX := 0 * (1 / 2 : α)
      bX := ((p (i - 1)).x - 2 * (p i).x + (p (i + 1)).x) * (1 / 2)
      cX := (-1 * (p (i - 1)).x + (p (i + 1)).x) * (1 / 2)
      dX := (2 * (p i).x) * (1 / 2)
      aY := 0 * (1 / 2 : α)
      bY := ((p (i - 1)).y - 2 * (p i).y + (p (i + 1)).y) * (1 / 2)
      cY := (-1 * (p (i - 1)).y + (p (i + 1)).y) * (1 / 2)
      dY := (2 * (p i).y) * (1 / 2)
      aZ := 0 * (1 / 2 : α)
      bZ := ((p (i - 1)).z - 2 * (p i).z + (p (i + 1)).z) * (1 / 2)
      cZ := (-1 * (p (i - 1)).z + (p (i + 1)).z) * (1 / 2)
      dZ := (2 * (p i).z) * (1 / 2) }
  else
    { aX := (-1 * (p (i - 1)).x + 3 * (p i).x - 3 * (p (i + 1)).x + (p (i + 2)).x) * (1 / 2)
      bX := (2 * (p (i - 1)).x - 5 * (p i).x + 4 * (p (i + 1)).x - (p (i + 2)).x) * (1 / 2)
      cX := (-(p (i - 1)).x + (p (i + 1)).x) * (1 / 2)
      dX := (2 * (p i).x) * (1 / 2)
      aY := (-1 * (p (i - 1)).y + 3 * (p i).y - 3 * (p (i + 1)).y + (p (i + 2)).y) * (1 / 2)
      bY := (2 * (p (i - 1)).y - 5 * (p i).y + 4 * (p (i + 1)).y - (p (i + 2)).y) * (1 / 2)
      cY := (-(p (i - 1)).y + (p (i + 1)).y) * (1 / 2)
      dY := (2 * (p i).y) * (1 / 2)
      aZ := (-1 * (p (i - 1)).z + 3 * (p i).z - 3 * (p (i + 1)).z + (p (i + 2)).z) * (1 / 2)
      bZ := (2 * (p (i - 1)).z - 5 * (p i).z + 4 * (p (i + 1)).z - (p (i + 2)).z) * (1 / 2)
      cZ := (-(p (i - 1)).z + (p (i + 1)).z) * (1 / 2)
      dZ := (2 * (p i).z) * (1 / 2) }

/-- All Hermite segments built by the constructor: one per adjacent control-point
pair for the curve case (`control_points.size() >= 3`), and none for the point and
line cases (sizes 1 and 2, which leave `curves_` empty). -/
def catmullRomCurves (cps : List (Point3 α)) : List (HermiteCurve α) :=
  if cps.length ≤ 2 then [] else (List.range (cps.length - 1)).map (buildCurve cps)

/-- `std::numeric_limits<float>::epsilon()`, the single-precision machine epsilon
2 ^ (-23), used as the connectivity tolerance. -/
def floatEps : α := 1 / 8388608

/-- `CatmullRomSpline::equals` (lines 457-470): per-coordinate comparison within
the single-precision epsilon. -/
def pointEquals (q0 q1 : Point3 α) : Bool :=
  if |q0.x - q1.x| > floatEps then false
  else if |q0.y - q1.y| > floatEps then false
  else if |q0.z - q1.z| > floatEps then false
  else true

/-- Modelled from the spec: the helper `getLineSegments` is not among the sources
at hand; per spec §4.1 "a polygon is treated as its ordered boundary edges for
collision purposes", so a point list maps to its consecutive edges together with
the closing edge (and lists with fewer than two points have no edges). -/
def getLineSegments (ps : List (Point3 α)) : List (LineSegment α) :=
  if ps.length ≤ 1 then []
  else (ps.zip (ps.drop 1 ++ ps.take 1)).map fun q => ⟨q.1, q.2⟩

/-- The spline state owned after construction: the ordered control points, the
Hermite segments `curves_`, the `line_segments_` built from the control points,
the per-segment length table `length_list_` (caching `curves_[i].getLength()`)
and `total_length_`. -/
structure CatmullRomSpline (α : Type*) where
  controlPoints : List (Point3 α)
  curves : List (HermiteCurve α)
  lineSegments : List (LineSegment α)
  lengthList : List α
  totalLength : α

/-- `CatmullRomSpline::checkConnection` (lines 430-455): count check, per-segment
endpoint check against the control points within the float tolerance, and the
non-empty check. -/
def checkConnection (sp : CatmullRomSpline α) : Bool :=
  if sp.controlPoints.length ≠ sp.curves.length + 1 then false
  else if (List.range sp.curves.length).all (fun i =>
      pointEquals (sp.controlPoints.getD i default) ((sp.curves.getD i default).getPoint 0) &&
      pointEquals (sp.controlPoints.getD (i + 1) default)
        ((sp.curves.getD i default).getPoint 1)) then
    if sp.curves.isEmpty then false else true
  else false

/-- The two fatal construction-time failures of the constructor: the semantic
error for empty control points and the connectivity error of `checkConnection`. -/
inductive SplineError where
  | construction : SplineError
  | connectivity : SplineError

/-- The constructor `CatmullRomSpline::CatmullRomSpline` (lines 121-237),
parameterized by the per-curve arc-length function `lenOf` standing for
`HermiteCurve::getLength` (whose numeric-integration body is not among the
sources at hand): empty input is the construction error; sizes 1 and 2 build no
curves; size >= 3 builds the segments, caches lengths, sums `total_length_` and
validates connectivity. -/
def mkSpline (lenOf : HermiteCurve α → α) (cps : List (Point3 α)) :
    Except SplineError (CatmullRomSpline α) :=
  if cps.length = 0 then .error .construction
  else
    let curves := catmullRomCurves cps
    let lengths := curves.map lenOf
    let sp : CatmullRomSpline α := ⟨cps, curves, getLineSegments cps, lengths, lengths.sum⟩
    if 3 ≤ cps.length then
      if checkConnection sp then .ok sp else .error .connectivity
    else .ok sp

/-- The invariant tying a spline value to its construction: the fields are exactly
what the constructor computes from the control points, and the cached segment
lengths are non-negative (true of the actual `HermiteCurve::getLength`, a sum of
chord lengths; see `HermiteCurve.sampledLength_nonneg`). -/
def WellFormed (lenOf : HermiteCurve α → α) (sp : CatmullRomSpline α) : Prop :=
  sp.curves = catmullRomCurves sp.controlPoints ∧
  sp.lineSegments = getLineSegments sp.controlPoints ∧
  sp.lengthList = sp.curves.map lenOf ∧
  sp.totalLength = sp.lengthList.sum ∧
  ∀ l ∈ sp.lengthList, 0 ≤ l

/-- The scan loop of `getCurveIndexAndS` (lines 248-255): walk the cumulative
boundaries, returning the first segment whose half-open span contains s, or
nothing when the loop falls through (the THROW branch of the source). -/
def curveScan : List α → α → ℕ → α → Option (ℕ × α)
  | [], _, _, _ => none
  | l :: ls, s, i, acc =>
    if acc ≤ s ∧ s < acc + l then some (i, s - acc) else curveScan ls s (i + 1) (acc + l)

/-- `CatmullRomSpline::getCurveIndexAndS` (lines 239-257).  The last curve's
`getLength()` is read from the cached table, which the constructor fills with
exactly those values. -/
def getCurveIndexAndS (sp : CatmullRomSpline α) (s : α) : Option (ℕ × α) :=
  if s < 0 then some (0, s)
  else if sp.totalLength ≤ s then
    some (sp.curves.length - 1, s - (sp.totalLength - sp.lengthList.getLastD 0))
  else curveScan sp.lengthList s 0 0

/-- The loop of `getSInSplineCurve` (lines 259-271): accumulate the lengths of the
curves before `target`, or fall through (the THROW branch) when the index is out
of range. -/
def sInGo (target : ℕ) : List α → ℕ → α → α → Option α
  | [], _, _, _ => none
  | l :: ls, i, s, acc => if i = target then some (acc + s) else sInGo target ls (i + 1) s (acc + l)

/-- `CatmullRomSpline::getSInSplineCurve` (lines 259-271). -/
def getSInSplineCurve (sp : CatmullRomSpline α) (curveIndex : ℕ) (s : α) : Option α :=
  sInGo curveIndex sp.lengthList 0 s 0

/-- Cumulative length of the first `i` segments (the running `prev_s` of the
source loops). -/
def cumLen (L : List α) (i : ℕ) : α := (L.take i).sum

/-- `*std::max_element` over a candidate list (none when empty). -/
def maxElement : List α → Option α
  | [] => none
  | x :: xs => some (xs.foldl max x)

/-- `*std::min_element` over a candidate list (none when empty). -/
def minElement : List α → Option α
  | [] => none
  | x :: xs => some (xs.foldl min x)

/-- The polygon overload `CatmullRomSpline::getCollisionPointIn2D` (lines
273-330), parameterized by `intersectS` standing for
`LineSegment::getIntersection2DSValue` and `curveCollide` standing for
`HermiteCurve::getCollisionPointIn2D` (neither is among the sources at hand):
size 0 throws (modelled as no value), size 1 answers nothing, size 2 intersects
`line_segments_[0]` with every polygon edge and takes the max or min candidate,
and the curve case scans the segments in the direction given by
`search_backward`, translating the first hit through `getSInSplineCurve`. -/
def getCollisionPointIn2DPolygon (intersectS : LineSegment α → LineSegment α → Option α)
    (curveCollide : HermiteCurve α → List (Point3 α) → Bool → Option α)
    (sp : CatmullRomSpline α) (polygon : List (Point3 α)) (searchBackward : Bool) : Option α :=
  if sp.controlPoints.length = 0 then none
  else if sp.controlPoints.length = 1 then none
  else if sp.controlPoints.length = 2 then
    let cands := (getLineSegments polygon).filterMap
      (fun line => intersectS (sp.lineSegments.getD 0 default) line)
    if cands.isEmpty then none
    else if searchBackward then maxElement cands else minElement cands
  else
    let n := sp.curves.length
    if searchBackward then
      (List.range n).findSome? (fun i =>
        (curveCollide (sp.curves.getD (n - 1 - i) default) polygon searchBackward).bind
          (fun s => getSInSplineCurve sp (n - 1 - i) s))
    else
      (List.range n).findSome? (fun i =>
        (curveCollide (sp.curves.getD i default) polygon searchBackward).bind
          (fun s => getSInSplineCurve sp i s))

/-- The two-point overload `CatmullRomSpline::getCollisionPointIn2D` (lines
332-355), parameterized by `curveCollide2` standing for the segment-level
`HermiteCurve::getCollisionPointIn2D(point0, point1, search_backward)`: it only
scans `curves_`, with no dispatch on the control-point count. -/
def getCollisionPointIn2DTwoPoints
    (curveCollide2 : HermiteCurve α → Point3 α → Point3 α → Bool → Option α)
    (sp : CatmullRomSpline α) (point0 point1 : Point3 α) (searchBackward : Bool) : Option α :=
  let n := sp.curves.length
  if searchBackward then
    (List.range n).findSome? (fun i =>
      (curveCollide2 (sp.curves.getD (n - 1 - i) default) point0 point1 searchBackward).bind
        (fun s => getSInSplineCurve sp (n - 1 - i) s))
  else
    (List.range n).findSome? (fun i =>
      (curveCollide2 (sp.curves.getD i default) point0 point1 searchBackward).bind
        (fun s => getSInSplineCurve sp i s))

/-- `CatmullRomSpline::getPoint(double s)` (lines 386-390): resolve and evaluate.
The unreachable THROW of the resolver maps to the default point. -/
def CatmullRomSpline.getPoint (sp : CatmullRomSpline α) (s : α) : Point3 α :=
  match getCurveIndexAndS sp s with
  | some (i, t) => (sp.curves.getD i default).getPoint t
  | none => default

/-- `CatmullRomSpline::getNormalVector` (lines 412-416). -/
def CatmullRomSpline.getNormalVector (sp : CatmullRomSpline α) (s : α) : Vec3 α :=
  match getCurveIndexAndS sp s with
  | some (i, t) => (sp.curves.getD i default).getNormalVector t
  | none => default

/-- The ascending loop of `getTrajectory` (lines 110-117), with explicit fuel:
while `s < end_s` push the point at s and advance by `step`; afterwards push the
exact end point.  Exhausted fuel (the source loop would still be running) yields
no result. -/
def trajGoUp (pointAt : α → Point3 α) (endS step : α) : ℕ → α → Option (List (Point3 α))
  | 0, s => if s < endS then none else some [pointAt endS]
  | fuel + 1, s =>
    if s < endS then (trajGoUp pointAt endS step fuel (s + step)).map (fun pts => pointAt s :: pts)
    else some [pointAt endS]

/-- The descending loop of `getTrajectory` (lines 101-108): while `s > end_s`
push and retreat by `step`, then push the exact end point. -/
def trajGoDown (pointAt : α → Point3 α) (endS step : α) : ℕ → α → Option (List (Point3 α))
  | 0, s => if s > endS then none else some [pointAt endS]
  | fuel + 1, s =>
    if s > endS then (trajGoDown pointAt endS step fuel (s - step)).map (fun pts => pointAt s :: pts)
    else some [pointAt endS]

/-- `std::atan2(y, x)`, realized as the argument of the complex number x + y i. -/
noncomputable def atanTwo (y x : ℝ) : ℝ := Complex.arg ⟨x, y⟩

/-- Euclidean distance between two 3D points. -/
noncomputable def dist3 (p q : Point3 ℝ) : ℝ :=
  Real.sqrt ((p.x - q.x) ^ 2 + (p.y - q.y) ^ 2 + (p.z - q.z) ^ 2)

/-- Modelled from the spec: `HermiteCurve::getLength` is not among the sources at
hand; per spec §4.2 it is "computed once at construction by sampling the curve at
fine resolution and summing chord lengths", here with `num` samples. -/
noncomputable def HermiteCurve.sampledLength (c : HermiteCurve ℝ) (num : ℕ) : ℝ :=
  ∑ k in Finset.range num,
    dist3 (c.getPoint ((k : ℝ) / num)) (c.getPoint (((k : ℝ) + 1) / num))

/-- `CatmullRomSpline::getPoint(double s, double offset)` (lines 392-402):
offset along the heading angle of the normal vector. -/
noncomputable def CatmullRomSpline.getPointOffset (sp : CatmullRomSpline ℝ) (s offset : ℝ) :
    Point3 ℝ :=
  let vec := sp.getNormalVector s
  let theta := atanTwo vec.y vec.x
  let p := sp.getPoint s
  ⟨p.x + offset * Real.cos theta, p.y + offset * Real.sin theta, p.z⟩

/-- `CatmullRomSpline::getTrajectory` (lines 97-119) with explicit fuel for the
two while loops: the direction is chosen by comparing `start_s` and `end_s`, and
the step is the absolute value of the resolution. -/
noncomputable def CatmullRomSpline.getTrajectoryFuel (sp : CatmullRomSpline ℝ)
    (startS endS resolution offset : ℝ) (fuel : ℕ) : Option (List (Point3 ℝ)) :=
  if startS > endS then
    trajGoDown (fun s => sp.getPointOffset s offset) endS |resolution| fuel startS
  else trajGoUp (fun s => sp.getPointOffset s offset) endS |resolution| fuel startS

/-- The trajectory computation terminates when some finite fuel lets the loop run
to completion. -/
def TrajectoryTerminates (sp : CatmullRomSpline ℝ) (startS endS resolution offset : ℝ) : Prop :=
  ∃ fuel pts, sp.getTrajectoryFuel startS endS resolution offset fuel = some pts

/-- `CatmullRomSpline::getRightBounds` (lines 51-72): `num_points + 1` samples at
evenly spaced arc lengths, each displaced by +width/2 along the heading of the
normal vector, with the z offset added. -/
noncomputable def CatmullRomSpline.getRightBounds (sp : CatmullRomSpline ℝ) (width : ℝ)
    (numPoints : ℕ) (zOffset : ℝ) : List (Point3 ℝ) :=
  (List.range (numPoints + 1)).map fun (i : ℕ) =>
    let s := sp.totalLength / (numPoints : ℝ) * (i : ℝ)
    let vec := sp.getNormalVector s
    let theta := atanTwo vec.y vec.x
    let p := sp.getPoint s
    ⟨p.x + 0.5 * width * Real.cos theta, p.y + 0.5 * width * Real.sin theta, p.z + zOffset⟩

/-- `CatmullRomSpline::getLeftBounds` (lines 74-95): as `getRightBounds` with the
opposite displacement sign. -/
noncomputable def CatmullRomSpline.getLeftBounds (sp : CatmullRomSpline ℝ) (width : ℝ)
    (numPoints : ℕ) (zOffset : ℝ) : List (Point3 ℝ) :=
  (List.range (numPoints + 1)).map fun (i : ℕ) =>
    let s := sp.totalLength / (numPoints : ℝ) * (i : ℝ)
    let vec := sp.getNormalVector s
    let theta := atanTwo vec.y vec.x
    let p := sp.getPoint s
    ⟨p.x - 0.5 * width * Real.cos theta, p.y - 0.5 * width * Real.sin theta, p.z + zOffset⟩

/-- Concrete rational control points used by the witnesses: three non-collinear
points, a genuine curve spline. -/
def cpsQ : List (Point3 ℚ) := [⟨0, 0, 0⟩, ⟨1, 0, 0⟩, ⟨2, 1, 0⟩]

/-- The unit per-segment length function used by the witnesses in place of the
numeric integration (any non-negative length table satisfies the invariant). -/
def unitLen : HermiteCurve α → α := fun _ => 1

/-- The witness spline over ℚ, with fields exactly as the constructor computes
them. -/
def spQ : CatmullRomSpline ℚ :=
  ⟨cpsQ, catmullRomCurves cpsQ, getLineSegments cpsQ,
    (catmullRomCurves cpsQ).map unitLen, ((catmullRomCurves cpsQ).map unitLen).sum⟩

/-- A two-control-point (line) witness spline over ℚ. -/
def cpsTwoQ : List (Point3 ℚ) := [⟨0, 0, 0⟩, ⟨4, 0, 0⟩]

/-- The line-spline witness state over ℚ. -/
def spTwoQ : CatmullRomSpline ℚ :=
  ⟨cpsTwoQ, catmullRomCurves cpsTwoQ, getLineSegments cpsTwoQ,
    (catmullRomCurves cpsTwoQ).map unitLen, ((catmullRomCurves cpsTwoQ).map unitLen).sum⟩

/-- The witness control points over ℝ. -/
noncomputable def cpsR : List (Point3 ℝ) := [⟨0, 0, 0⟩, ⟨1, 0, 0⟩, ⟨2, 1, 0⟩]

/-- The witness spline over ℝ (used by the trajectory and bounds claims). -/
noncomputable def spR : CatmullRomSpline ℝ :=
  ⟨cpsR, catmullRomCurves cpsR, getLineSegments cpsR,
    (catmullRomCurves cpsR).map unitLen, ((catmullRomCurves cpsR).map unitLen).sum⟩

/-- The point at arc length s displaced by `off` along the heading direction of
the normal vector, with `zOff` added to the elevation: the sampling rule shared
by `getRightBounds` (off = +width/2) and `getLeftBounds` (off = -width/2). -/
noncomputable def offsetPoint (sp : CatmullRomSpline ℝ) (off zOff s : ℝ) : Point3 ℝ :=
  let vec := sp.getNormalVector s
  let theta := atanTwo vec.y vec.x
  let p := sp.getPoint s
  ⟨p.x + off * Real.cos theta, p.y + off * Real.sin theta, p.z + zOff⟩

/-- A concrete rational polygon used by the collision witnesses. -/
def polyQ : List (Point3 ℚ) := [⟨1, 1, 0⟩, ⟨1, -1, 0⟩, ⟨2, 0, 0⟩]

theorem buildCurve_getPoint_zero (cps : List (Point3 α)) (i : ℕ) :
    (buildCurve cps i).getPoint 0 = ctrlPt cps i := by
  ext <;> simp only [buildCurve, HermiteCurve.getPoint] <;> split_ifs with h1 h2 <;>
      (try subst h1) <;> (show _ = _) <;> ring_nf <;> simp

theorem buildCurve_getPoint_one (cps : List (Point3 α)) (i : ℕ) :
    (buildCurve cps i).getPoint 1 = ctrlPt cps (i + 1) := by
  ext <;> simp only [buildCurve, HermiteCurve.getPoint] <;> split_ifs with h1 h2 <;>
      (try subst h1) <;> (show _ = _) <;> ring_nf <;> simp

theorem catmullRomCurves_length (cps : List (Point3 α)) (h3 : 3 ≤ cps.length) :
    (catmullRomCurves cps).length = cps.length - 1 := by
  have hno : ¬ cps.length ≤ 2 := by omega
  simp [catmullRomCurves, hno]

theorem catmullRomCurves_getD (cps : List (Point3 α)) (h3 : 3 ≤ cps.length) (i : ℕ)
    (hi : i < cps.length - 1) :
    (catmullRomCurves cps).getD i default = buildCurve cps i := by
  have hno : ¬ cps.length ≤ 2 := by omega
  unfold catmullRomCurves
  rw [if_neg hno, List.getD_eq_getElem?_getD, List.getElem?_map, List.getElem?_range hi,
    Option.map_some', Option.getD_some]

theorem floatEps_nonneg : (0 : α) ≤ floatEps := by
  unfold floatEps
  positivity

/-- C1: for every spline construction from n ≥ 3 control points, exactly n - 1
Hermite segments are built, and segment i evaluated at local parameter t = 0
equals control point i and at t = 1 equals control point i + 1, each coordinate
differing by at most the single-precision machine epsilon (in the exact-field
model the difference is zero). -/
theorem segment_count_and_endpoints (cps : List (Point3 α)) (h3 : 3 ≤ cps.length) :
    (catmullRomCurves cps).length = cps.length - 1 ∧
    ∀ i, i < cps.length - 1 →
      (|(((catmullRomCurves cps).getD i default).getPoint 0).x - (ctrlPt cps i).x| ≤ floatEps ∧
       |(((catmullRomCurves cps).getD i default).getPoint 0).y - (ctrlPt cps i).y| ≤ floatEps ∧
       |(((catmullRomCurves cps).getD i default).getPoint 0).z - (ctrlPt cps i).z| ≤ floatEps) ∧
      (|(((catmullRomCurves cps).getD i default).getPoint 1).x - (ctrlPt cps (i + 1)).x| ≤
        floatEps ∧
       |(((catmullRomCurves cps).getD i default).getPoint 1).y - (ctrlPt cps (i + 1)).y| ≤
        floatEps ∧
       |(((catmullRomCurves cps).getD i default).getPoint 1).z - (ctrlPt cps (i + 1)).z| ≤
        floatEps) := by
  refine ⟨catmullRomCurves_length cps h3, fun i hi => ?_⟩
  rw [catmullRomCurves_getD cps h3 i hi, buildCurve_getPoint_zero, buildCurve_getPoint_one]
  simp [floatEps_nonneg]

/-- Witness for C1 at the concrete rational control points `cpsQ`. -/
theorem segment_count_and_endpoints_witness :
    3 ≤ cpsQ.length ∧
    ((catmullRomCurves cpsQ).length = cpsQ.length - 1 ∧
    ∀ i, i < cpsQ.length - 1 →
      (|(((catmullRomCurves cpsQ).getD i default).getPoint 0).x - (ctrlPt cpsQ i).x| ≤ floatEps ∧
       |(((catmullRomCurves cpsQ).getD i default).getPoint 0).y - (ctrlPt cpsQ i).y| ≤ floatEps ∧
       |(((catmullRomCurves cpsQ).getD i default).getPoint 0).z - (ctrlPt cpsQ i).z| ≤ floatEps) ∧
      (|(((catmullRomCurves cpsQ).getD i default).getPoint 1).x - (ctrlPt cpsQ (i + 1)).x| ≤
        floatEps ∧
       |(((catmullRomCurves cpsQ).getD i default).getPoint 1).y - (ctrlPt cpsQ (i + 1)).y| ≤
        floatEps ∧
       |(((catmullRomCurves cpsQ).getD i default).getPoint 1).z - (ctrlPt cpsQ (i + 1)).z| ≤
        floatEps)) :=
  ⟨by decide, segment_count_and_endpoints cpsQ (by decide)⟩

theorem cumLen_cons_succ (l : α) (L : List α) (k : ℕ) :
    cumLen (l :: L) (k + 1) = l + cumLen L k := by
  simp [cumLen, List.take_succ_cons]

theorem curveScan_found : ∀ (L : List α) (s acc : α) (i0 : ℕ), acc ≤ s → s < acc + L.sum →
    ∃ k, k < L.length ∧ curveScan L s i0 acc = some (i0 + k, s - (acc + cumLen L k)) ∧
      acc + cumLen L k ≤ s ∧ s < acc + cumLen L (k + 1) := by
  intro L
  induction L with
  | nil =>
    intro s acc i0 h1 h2
    simp only [List.sum_nil, add_zero] at h2
    exact absurd h2 (not_lt.2 h1)
  | cons l ls ih =>
    intro s acc i0 h1 h2
    by_cases hc : acc ≤ s ∧ s < acc + l
    · refine ⟨0, by simp, ?_, ?_, ?_⟩
      · simp [curveScan, hc, cumLen]
      · simpa [cumLen] using h1
      · have := hc.2
        simpa [cumLen_cons_succ, cumLen] using this
    · have hl : acc + l ≤ s := by
        rcases not_and_or.mp hc with h | h
        · exact absurd h1 h
        · exact not_lt.1 h
      have h2' : s < (acc + l) + ls.sum := by
        have hsum : (l :: ls).sum = l + ls.sum := by simp
        rw [hsum] at h2
        linarith
      obtain ⟨k, hk, heq, hlo, hhi⟩ := ih s (acc + l) (i0 + 1) hl h2'
      have e1 : i0 + 1 + k = i0 + (k + 1) := by omega
      have e2 : acc + cumLen (l :: ls) (k + 1) = acc + l + cumLen ls k := by
        rw [cumLen_cons_succ]
        ring
      have e3 : acc + cumLen (l :: ls) (k + 1 + 1) = acc + l + cumLen ls (k + 1) := by
        rw [cumLen_cons_succ]
        ring
      refine ⟨k + 1, by simpa using Nat.succ_lt_succ hk, ?_, ?_, ?_⟩
      · simp only [curveScan, if_neg hc]
        rw [heq, e1, e2]
      · rw [e2]
        exact hlo
      · rw [e3]
        exact hhi

theorem cumLen_le_succ (L : List α) (hL : ∀ l ∈ L, 0 ≤ l) (m : ℕ) :
    cumLen L m ≤ cumLen L (m + 1) := by
  unfold cumLen
  rw [List.take_succ, List.sum_append]
  have hnn : 0 ≤ (L[m]?.toList).sum := by
    cases h : L[m]? with
    | none => simp
    | some a =>
      have ha : a ∈ L := by
        have := List.getElem?_eq_some_iff.mp h
        obtain ⟨hm, rfl⟩ := this
        exact List.getElem_mem hm
      simpa using hL a ha
  linarith

theorem cumLen_mono (L : List α) (hL : ∀ l ∈ L, 0 ≤ l) : Monotone (cumLen L) :=
  monotone_nat_of_le_succ (cumLen_le_succ L hL)

theorem cumLen_pred_add_last (L : List α) (h : L ≠ []) :
    cumLen L (L.length - 1) + L.getLastD 0 = L.sum := by
  induction L with
  | nil => exact absurd rfl h
  | cons x xs ih =>
    cases xs with
    | nil => simp [cumLen]
    | cons y ys =>
      have hne : (y :: ys) ≠ [] := by simp
      have hih := ih hne
      have hlen : (x :: y :: ys).length - 1 = (y :: ys).length := by simp
      rw [hlen]
      have hsucc : (y :: ys).length = ((y :: ys).length - 1) + 1 := by simp
      have hcum : cumLen (x :: y :: ys) ((y :: ys).length) =
          x + cumLen (y :: ys) ((y :: ys).length - 1) := by
        conv_lhs => rw [hsucc]
        rw [cumLen_cons_succ]
      have hlast : (x :: y :: ys).getLastD 0 = (y :: ys).getLastD 0 := by
        simp [List.getLastD]
      rw [hcum, hlast, add_assoc, hih]
      simp

theorem sInGo_eq : ∀ (L : List α) (k i : ℕ) (s acc : α), k < L.length →
    sInGo (i + k) L i s acc = some (acc + cumLen L k + s) := by
  intro L
  induction L with
  | nil =>
    intro k i s acc h
    simp at h
  | cons l ls ih =>
    intro k i s acc h
    cases k with
    | zero => simp [sInGo, cumLen]
    | succ kp =>
      have hne : ¬ i = i + (kp + 1) := by omega
      have hk : kp < ls.length := by simpa using Nat.lt_of_succ_lt_succ h
      have hstep : sInGo (i + (kp + 1)) (l :: ls) i s acc =
          sInGo (i + (kp + 1)) ls (i + 1) s (acc + l) := by
        simp only [sInGo, if_neg hne]
      rw [hstep, show i + (kp + 1) = (i + 1) + kp from by omega, ih kp (i + 1) s (acc + l) hk,
        cumLen_cons_succ]
      congr 1
      ring

theorem getSInSplineCurve_cum (sp : CatmullRomSpline α) (ci : ℕ)
    (hci : ci < sp.lengthList.length) (s : α) :
    getSInSplineCurve sp ci s = some (cumLen sp.lengthList ci + s) := by
  unfold getSInSplineCurve
  have := sInGo_eq sp.lengthList ci 0 s 0 hci
  simpa using this

theorem wf_curves_length (lenOf : HermiteCurve α → α) (sp : CatmullRomSpline α)
    (hwf : WellFormed lenOf sp) (h3 : 3 ≤ sp.controlPoints.length) :
    sp.curves.length = sp.controlPoints.length - 1 := by
  rw [hwf.1]
  exact catmullRomCurves_length _ h3

theorem wf_lengthList_length (lenOf : HermiteCurve α → α) (sp : CatmullRomSpline α)
    (hwf : WellFormed lenOf sp) (h3 : 3 ≤ sp.controlPoints.length) :
    sp.lengthList.length = sp.controlPoints.length - 1 := by
  rw [hwf.2.2.1, List.length_map]
  exact wf_curves_length lenOf sp hwf h3

theorem wf_totalLength_nonneg (lenOf : HermiteCurve α → α) (sp : CatmullRomSpline α)
    (hwf : WellFormed lenOf sp) : 0 ≤ sp.totalLength := by
  rw [hwf.2.2.2.1]
  exact List.sum_nonneg hwf.2.2.2.2

/-- C2: arc-length resolution. For s < 0 the pair (0, s) is returned unclamped;
for s ≥ totalLength the pair (lastIndex, s − (totalLength − lastSegmentLength));
otherwise the unique segment whose cumulative span contains s, with the local
arc length relative to the segment start. -/
theorem curve_index_resolution (lenOf : HermiteCurve α → α) (sp : CatmullRomSpline α)
    (hwf : WellFormed lenOf sp) (h3 : 3 ≤ sp.controlPoints.length) (s : α) :
    (s < 0 → getCurveIndexAndS sp s = some (0, s)) ∧
    (sp.totalLength ≤ s →
      getCurveIndexAndS sp s =
        some (sp.controlPoints.length - 2, s - (sp.totalLength - sp.lengthList.getLastD 0))) ∧
    (0 ≤ s → s < sp.totalLength →
      ∃ i, getCurveIndexAndS sp s = some (i, s - cumLen sp.lengthList i) ∧
        cumLen sp.lengthList i ≤ s ∧ s < cumLen sp.lengthList (i + 1) ∧
        ∀ j, cumLen sp.lengthList j ≤ s → s < cumLen sp.lengthList (j + 1) → j = i) := by
  have hcl := wf_curves_length lenOf sp hwf h3
  have hnn := hwf.2.2.2.2
  have htot := hwf.2.2.2.1
  have htot0 := wf_totalLength_nonneg lenOf sp hwf
  refine ⟨?_, ?_, ?_⟩
  · intro hs
    unfold getCurveIndexAndS
    rw [if_pos hs]
  · intro hs
    have hns : ¬ s < 0 := by linarith
    have hidx : sp.curves.length - 1 = sp.controlPoints.length - 2 := by omega
    unfold getCurveIndexAndS
    rw [if_neg hns, if_pos hs, hidx]
  · intro h0 hlt
    have hns : ¬ s < 0 := not_lt.2 h0
    have hnt : ¬ sp.totalLength ≤ s := not_le.2 hlt
    have hsum : s < 0 + sp.lengthList.sum := by
      rw [zero_add, ← htot]
      exact hlt
    obtain ⟨k, hk, heq, hlo, hhi⟩ := curveScan_found sp.lengthList s 0 0 h0 hsum
    refine ⟨k, ?_, by simpa using hlo, by simpa using hhi, ?_⟩
    · unfold getCurveIndexAndS
      rw [if_neg hns, if_neg hnt]
      simpa using heq
    · intro j hj1 hj2
      by_contra hne
      rcases Nat.lt_or_ge j k with hlt2 | hge
      · have hmono := cumLen_mono sp.lengthList hnn (Nat.succ_le_of_lt hlt2)
        have hlo' : cumLen sp.lengthList k ≤ s := by simpa using hlo
        have : s < cumLen sp.lengthList k := lt_of_lt_of_le hj2 hmono
        linarith
      · have hlt3 : k < j := lt_of_le_of_ne hge (fun hkk => hne hkk.symm)
        have hmono := cumLen_mono sp.lengthList hnn (Nat.succ_le_of_lt hlt3)
        have hhi' : s < cumLen sp.lengthList (k + 1) := by simpa using hhi
        have : s < cumLen sp.lengthList j := lt_of_lt_of_le hhi' hmono
        linarith

/-- The witness spline `spQ` satisfies the construction invariant with the unit
length function. -/
theorem spQ_wellFormed : WellFormed unitLen spQ := by
  unfold WellFormed
  exact ⟨rfl, rfl, rfl, rfl, by decide⟩

/-- Witness for C2 at the concrete rational spline `spQ` and s = 3/2. -/
theorem curve_index_resolution_witness :
    ((3 : ℚ) / 2 < 0 → getCurveIndexAndS spQ (3 / 2) = some (0, 3 / 2)) ∧
    (spQ.totalLength ≤ 3 / 2 →
      getCurveIndexAndS spQ (3 / 2) =
        some (spQ.controlPoints.length - 2,
          3 / 2 - (spQ.totalLength - spQ.lengthList.getLastD 0))) ∧
    (0 ≤ (3 : ℚ) / 2 → (3 : ℚ) / 2 < spQ.totalLength →
      ∃ i, getCurveIndexAndS spQ (3 / 2) = some (i, 3 / 2 - cumLen spQ.lengthList i) ∧
        cumLen spQ.lengthList i ≤ 3 / 2 ∧ (3 : ℚ) / 2 < cumLen spQ.lengthList (i + 1) ∧
        ∀ j, cumLen spQ.lengthList j ≤ 3 / 2 → (3 : ℚ) / 2 < cumLen spQ.lengthList (j + 1) →
          j = i) :=
  curve_index_resolution unitLen spQ spQ_wellFormed (by decide) (3 / 2)

/-- C3: for s in [0, totalLength], `getSInSplineCurve` applied to the pair
returned by `getCurveIndexAndS` recovers s, and the returned segment index is at
most n − 2. -/
theorem resolution_round_trip (lenOf : HermiteCurve α → α) (sp : CatmullRomSpline α)
    (hwf : WellFormed lenOf sp) (h3 : 3 ≤ sp.controlPoints.length) (s : α)
    (h0 : 0 ≤ s) (hle : s ≤ sp.totalLength) :
    ∀ i localS, getCurveIndexAndS sp s = some (i, localS) →
      getSInSplineCurve sp i localS = some s ∧ i ≤ sp.controlPoints.length - 2 := by
  have hcl := wf_curves_length lenOf sp hwf h3
  have hll := wf_lengthList_length lenOf sp hwf h3
  have htot := hwf.2.2.2.1
  have hLne : sp.lengthList ≠ [] := by
    intro hnil
    rw [hnil] at hll
    simp at hll
    omega
  have hns : ¬ s < 0 := not_lt.2 h0
  intro i localS hres
  rcases eq_or_lt_of_le hle with heq | hlt
  · have hts : sp.totalLength ≤ s := le_of_eq heq.symm
    have hval : getCurveIndexAndS sp s =
        some (sp.curves.length - 1, s - (sp.totalLength - sp.lengthList.getLastD 0)) := by
      unfold getCurveIndexAndS
      rw [if_neg hns, if_pos hts]
    rw [hval] at hres
    obtain ⟨hi, hls⟩ := Prod.mk.injEq .. ▸ Option.some.inj hres
    have hsz : sp.lengthList.length = sp.curves.length := by
      rw [hwf.2.2.1]
      simp
    have hpos : 0 < sp.lengthList.length := List.length_pos.2 hLne
    have hci : sp.curves.length - 1 < sp.lengthList.length := by omega
    subst hi
    subst hls
    constructor
    · rw [getSInSplineCurve_cum sp (sp.curves.length - 1) hci]
      have hidx : sp.curves.length - 1 = sp.lengthList.length - 1 := by omega
      rw [hidx]
      have hsumeq := cumLen_pred_add_last sp.lengthList hLne
      have : cumLen sp.lengthList (sp.lengthList.length - 1) +
          (s - (sp.totalLength - sp.lengthList.getLastD 0)) = s := by
        rw [htot] at *
        linarith
      rw [this]
    · omega
  · have hnt : ¬ sp.totalLength ≤ s := not_le.2 hlt
    have hsum : s < 0 + sp.lengthList.sum := by
      rw [zero_add, ← htot]
      exact hlt
    obtain ⟨k, hk, heq2, hlo, hhi⟩ := curveScan_found sp.lengthList s 0 0 h0 hsum
    have hval : getCurveIndexAndS sp s = some (k, s - cumLen sp.lengthList k) := by
      unfold getCurveIndexAndS
      rw [if_neg hns, if_neg hnt]
      simpa using heq2
    rw [hval] at hres
    obtain ⟨hi, hls⟩ := Prod.mk.injEq .. ▸ Option.some.inj hres
    subst hi
    subst hls
    constructor
    · rw [getSInSplineCurve_cum sp k hk]
      congr 1
      ring
    · omega

/-- The total length of the witness spline `spQ` under the unit length table. -/
theorem spQ_totalLength : spQ.totalLength = 2 := by
  show ((catmullRomCurves cpsQ).map unitLen).sum = 2
  rw [show (catmullRomCurves cpsQ).map unitLen = [1, 1] from rfl]
  norm_num

/-- Resolution of s = 3/2 on the witness spline `spQ`: segment 1, local 1/2. -/
theorem spQ_resolve : getCurveIndexAndS spQ (3 / 2) = some (1, 1 / 2) := by
  unfold getCurveIndexAndS
  rw [spQ_totalLength, show spQ.lengthList = [(1 : ℚ), 1] from rfl]
  norm_num [curveScan]

/-- Witness for C3 at the concrete rational spline `spQ`, s = 3/2, which
resolves to segment 1 with local arc length 1/2. -/
theorem resolution_round_trip_witness :
    getSInSplineCurve spQ 1 (1 / 2) = some (3 / 2) ∧ 1 ≤ spQ.controlPoints.length - 2 :=
  resolution_round_trip unitLen spQ spQ_wellFormed (by decide) (3 / 2) (by norm_num)
    (by rw [spQ_totalLength]; norm_num) 1 (1 / 2) spQ_resolve

/-- C9: for a well-formed spline with n ≥ 3 control points (whose cached segment
lengths are non-negative and whose total length is their sum, as the constructor
guarantees), the fall-through THROW branch of `getCurveIndexAndS` is unreachable:
every input s resolves to some pair. -/
theorem resolution_error_unreachable (lenOf : HermiteCurve α → α) (sp : CatmullRomSpline α)
    (hwf : WellFormed lenOf sp) (h3 : 3 ≤ sp.controlPoints.length) :
    ∀ s, (getCurveIndexAndS sp s).isSome := by
  intro s
  unfold getCurveIndexAndS
  split_ifs with h1 h2
  · simp
  · simp
  · have h0 : 0 ≤ s := not_lt.1 h1
    have hsum : s < 0 + sp.lengthList.sum := by
      rw [zero_add, ← hwf.2.2.2.1]
      exact not_le.1 h2
    obtain ⟨k, hk, heq, _, _⟩ := curveScan_found sp.lengthList s 0 0 h0 hsum
    rw [heq]
    simp

/-- Witness for C9 at the concrete rational spline `spQ` and s = 5 (past the
end of the curve). -/
theorem resolution_error_unreachable_witness :
    (getCurveIndexAndS spQ 5).isSome :=
  resolution_error_unreachable unitLen spQ spQ_wellFormed (by decide) 5

/-- C8: construction from an empty control-point list fails with the
construction error and yields no spline; construction from any non-empty list
never raises that error, and for one or two control points it succeeds with no
Hermite segments built. -/
theorem construction_error_characterization (lenOf : HermiteCurve α → α)
    (cps : List (Point3 α)) :
    (mkSpline lenOf cps = Except.error SplineError.construction ↔ cps = []) ∧
    (cps.length = 1 ∨ cps.length = 2 →
      ∃ sp, mkSpline lenOf cps = Except.ok sp ∧ sp.curves = []) := by
  constructor
  · constructor
    · intro h
      by_contra hne
      have hpos : ¬ cps.length = 0 := by simpa using hne
      unfold mkSpline at h
      rw [if_neg hpos] at h
      split_ifs at h
      by_cases hb : checkConnection
          (⟨cps, catmullRomCurves cps, getLineSegments cps, (catmullRomCurves cps).map lenOf,
            ((catmullRomCurves cps).map lenOf).sum⟩ : CatmullRomSpline α) = true
      · simp [hb] at h
      · simp [hb] at h
    · intro h
      subst h
      unfold mkSpline
      simp
  · intro h
    have hne : ¬ cps.length = 0 := by omega
    have hn3 : ¬ 3 ≤ cps.length := by omega
    have hc2 : cps.length ≤ 2 := by omega
    refine ⟨⟨cps, catmullRomCurves cps, getLineSegments cps, (catmullRomCurves cps).map lenOf,
      ((catmullRomCurves cps).map lenOf).sum⟩, ?_, ?_⟩
    · unfold mkSpline
      rw [if_neg hne, if_neg hn3]
    · show catmullRomCurves cps = []
      unfold catmullRomCurves
      rw [if_pos hc2]

/-- Witness for C8 at the concrete two-point rational control list `cpsTwoQ`. -/
theorem construction_error_characterization_witness :
    (mkSpline unitLen cpsTwoQ = Except.error SplineError.construction ↔ cpsTwoQ = []) ∧
    (cpsTwoQ.length = 1 ∨ cpsTwoQ.length = 2 →
      ∃ sp, mkSpline unitLen cpsTwoQ = Except.ok sp ∧ sp.curves = []) :=
  construction_error_characterization unitLen cpsTwoQ

theorem foldl_max_mem (xs : List α) (x : α) : xs.foldl max x ∈ x :: xs := by
  induction xs generalizing x with
  | nil => simp
  | cons a as ih =>
    rw [List.foldl_cons]
    have h := ih (max x a)
    rcases List.mem_cons.mp h with h1 | h1
    · rw [h1]
      rcases max_choice x a with hm | hm <;> rw [hm] <;> simp
    · exact List.mem_cons_of_mem _ (List.mem_cons_of_mem _ h1)

theorem le_foldl_max_init (xs : List α) (x : α) : x ≤ xs.foldl max x := by
  induction xs generalizing x with
  | nil => simp
  | cons a as ih =>
    rw [List.foldl_cons]
    exact le_trans (le_max_left x a) (ih (max x a))

theorem le_foldl_max_mem (xs : List α) (x y : α) (hy : y ∈ xs) : y ≤ xs.foldl max x := by
  induction xs generalizing x with
  | nil => simp at hy
  | cons a as ih =>
    rw [List.foldl_cons]
    rcases List.mem_cons.mp hy with rfl | hy2
    · exact le_trans (le_max_right x y) (le_foldl_max_init as (max x y))
    · exact ih _ hy2

theorem maxElement_spec (l : List α) (h : l ≠ []) :
    ∃ m, maxElement l = some m ∧ m ∈ l ∧ ∀ y ∈ l, y ≤ m := by
  cases l with
  | nil => exact absurd rfl h
  | cons x xs =>
    refine ⟨xs.foldl max x, rfl, foldl_max_mem xs x, ?_⟩
    intro y hy
    rcases List.mem_cons.mp hy with rfl | hy2
    · exact le_foldl_max_init xs y
    · exact le_foldl_max_mem xs x y hy2

theorem foldl_min_mem (xs : List α) (x : α) : xs.foldl min x ∈ x :: xs := by
  induction xs generalizing x with
  | nil => simp
  | cons a as ih =>
    rw [List.foldl_cons]
    have h := ih (min x a)
    rcases List.mem_cons.mp h with h1 | h1
    · rw [h1]
      rcases min_choice x a with hm | hm <;> rw [hm] <;> simp
    · exact List.mem_cons_of_mem _ (List.mem_cons_of_mem _ h1)

theorem foldl_min_init_le (xs : List α) (x : α) : xs.foldl min x ≤ x := by
  induction xs generalizing x with
  | nil => simp
  | cons a as ih =>
    rw [List.foldl_cons]
    exact le_trans (ih (min x a)) (min_le_left x a)

theorem foldl_min_mem_le (xs : List α) (x y : α) (hy : y ∈ xs) : xs.foldl min x ≤ y := by
  induction xs generalizing x with
  | nil => simp at hy
  | cons a as ih =>
    rw [List.foldl_cons]
    rcases List.mem_cons.mp hy with rfl | hy2
    · exact le_trans (foldl_min_init_le as (min x y)) (min_le_right x y)
    · exact ih _ hy2

theorem minElement_spec (l : List α) (h : l ≠ []) :
    ∃ m, minElement l = some m ∧ m ∈ l ∧ ∀ y ∈ l, m ≤ y := by
  cases l with
  | nil => exact absurd rfl h
  | cons x xs =>
    refine ⟨xs.foldl min x, rfl, foldl_min_mem xs x, ?_⟩
    intro y hy
    rcases List.mem_cons.mp hy with rfl | hy2
    · exact foldl_min_init_le xs y
    · exact foldl_min_mem_le xs x y hy2

theorem collidePoly_two_spec (lenOf : HermiteCurve α → α)
    (intersectS : LineSegment α → LineSegment α → Option α)
    (curveCollide : HermiteCurve α → List (Point3 α) → Bool → Option α)
    (sp : CatmullRomSpline α) (hwf : WellFormed lenOf sp) (p0 p1 : Point3 α)
    (hcps : sp.controlPoints = [p0, p1]) (poly : List (Point3 α)) (sb : Bool) :
    ((getLineSegments poly).filterMap (fun line => intersectS ⟨p0, p1⟩ line) = [] →
      getCollisionPointIn2DPolygon intersectS curveCollide sp poly sb = none) ∧
    ((getLineSegments poly).filterMap (fun line => intersectS ⟨p0, p1⟩ line) ≠ [] →
      ∃ m, getCollisionPointIn2DPolygon intersectS curveCollide sp poly sb = some m ∧
        m ∈ (getLineSegments poly).filterMap (fun line => intersectS ⟨p0, p1⟩ line) ∧
        ∀ y ∈ (getLineSegments poly).filterMap (fun line => intersectS ⟨p0, p1⟩ line),
          (if sb = true then y ≤ m else m ≤ y)) := by
  have hlen : sp.controlPoints.length = 2 := by rw [hcps]; rfl
  have hseg0 : sp.lineSegments.getD 0 default = (⟨p0, p1⟩ : LineSegment α) := by
    rw [hwf.2.1, hcps]
    rfl
  have hred : getCollisionPointIn2DPolygon intersectS curveCollide sp poly sb =
      (let cands := (getLineSegments poly).filterMap
          (fun line => intersectS (⟨p0, p1⟩ : LineSegment α) line)
        if cands.isEmpty then none
        else if sb then maxElement cands else minElement cands) := by
    unfold getCollisionPointIn2DPolygon
    rw [hlen, hseg0]
    norm_num
  rw [hred]
  constructor
  · intro hnil
    simp [hnil]
  · intro hne
    have hemp : ((getLineSegments poly).filterMap
        (fun line => intersectS (⟨p0, p1⟩ : LineSegment α) line)).isEmpty = false := by
      simpa [List.isEmpty_iff] using hne
    cases sb with
    | false =>
      obtain ⟨m, hm, hmem, hmin⟩ := minElement_spec _ hne
      exact ⟨m, by simp [hemp, hm], hmem, by simpa using hmin⟩
    | true =>
      obtain ⟨m, hm, hmem, hmax⟩ := maxElement_spec _ hne
      exact ⟨m, by simp [hemp, hm], hmem, by simpa using hmax⟩

/-- The two-point witness spline `spTwoQ` satisfies the construction invariant. -/
theorem spTwoQ_wellFormed : WellFormed unitLen spTwoQ := by
  unfold WellFormed
  refine ⟨rfl, rfl, rfl, rfl, ?_⟩
  intro l hl
  simp [spTwoQ, catmullRomCurves, cpsTwoQ] at hl

/-- C5: the polygon-collision overload dispatches on control-point count: a
1-control-point spline returns no value for every polygon and direction; a
2-control-point spline intersects its own single stored segment with every
polygon boundary edge, returning the smallest candidate s-value for forward
search and the largest for backward search, or no value when no edge
intersects. -/
theorem polygon_collision_dispatch (lenOf : HermiteCurve α → α)
    (intersectS : LineSegment α → LineSegment α → Option α)
    (curveCollide : HermiteCurve α → List (Point3 α) → Bool → Option α)
    (sp : CatmullRomSpline α) (hwf : WellFormed lenOf sp) (poly : List (Point3 α)) (sb : Bool) :
    (sp.controlPoints.length = 1 →
      getCollisionPointIn2DPolygon intersectS curveCollide sp poly sb = none) ∧
    (∀ p0 p1, sp.controlPoints = [p0, p1] →
      ((getLineSegments poly).filterMap (fun line => intersectS ⟨p0, p1⟩ line) = [] →
        getCollisionPointIn2DPolygon intersectS curveCollide sp poly sb = none) ∧
      ((getLineSegments poly).filterMap (fun line => intersectS ⟨p0, p1⟩ line) ≠ [] →
        ∃ m, getCollisionPointIn2DPolygon intersectS curveCollide sp poly sb = some m ∧
          m ∈ (getLineSegments poly).filterMap (fun line => intersectS ⟨p0, p1⟩ line) ∧
          ∀ y ∈ (getLineSegments poly).filterMap (fun line => intersectS ⟨p0, p1⟩ line),
            (if sb = true then y ≤ m else m ≤ y))) := by
  constructor
  · intro h1
    unfold getCollisionPointIn2DPolygon
    rw [h1]
    norm_num
  · intro p0 p1 hcps
    exact collidePoly_two_spec lenOf intersectS curveCollide sp hwf p0 p1 hcps poly sb

/-- Witness for C5 at the concrete rational line spline `spTwoQ`, a constant
intersection function and the polygon `polyQ`. -/
theorem polygon_collision_dispatch_witness :
    (spTwoQ.controlPoints.length = 1 →
      getCollisionPointIn2DPolygon (fun _ _ => some (1 : ℚ)) (fun _ _ _ => none) spTwoQ polyQ
        false = none) ∧
    (∀ p0 p1, spTwoQ.controlPoints = [p0, p1] →
      ((getLineSegments polyQ).filterMap
          (fun line => (fun _ _ => some (1 : ℚ)) (⟨p0, p1⟩ : LineSegment ℚ) line) = [] →
        getCollisionPointIn2DPolygon (fun _ _ => some (1 : ℚ)) (fun _ _ _ => none) spTwoQ polyQ
          false = none) ∧
      ((getLineSegments polyQ).filterMap
          (fun line => (fun _ _ => some (1 : ℚ)) (⟨p0, p1⟩ : LineSegment ℚ) line) ≠ [] →
        ∃ m, getCollisionPointIn2DPolygon (fun _ _ => some (1 : ℚ)) (fun _ _ _ => none) spTwoQ
            polyQ false = some m ∧
          m ∈ (getLineSegments polyQ).filterMap
            (fun line => (fun _ _ => some (1 : ℚ)) (⟨p0, p1⟩ : LineSegment ℚ) line) ∧
          ∀ y ∈ (getLineSegments polyQ).filterMap
            (fun line => (fun _ _ => some (1 : ℚ)) (⟨p0, p1⟩ : LineSegment ℚ) line),
            (if false = true then y ≤ m else m ≤ y))) :=
  polygon_collision_dispatch unitLen (fun _ _ => some 1) (fun _ _ _ => none) spTwoQ
    spTwoQ_wellFormed polyQ false

/-- C10: the two-point collision overload does not dispatch on the spline's
kind; it only scans the Hermite segment list, so every spline with fewer than 3
control points answers no value for every point pair and direction — while the
polygon overload on the same 2-point spline does produce a hit through its
stored line segment whenever an edge intersects. -/
theorem twopoint_collision_ignores_spline_kind (lenOf : HermiteCurve α → α)
    (sp : CatmullRomSpline α) (hwf : WellFormed lenOf sp)
    (hn : sp.controlPoints.length < 3) :
    (∀ (curveCollide2 : HermiteCurve α → Point3 α → Point3 α → Bool → Option α)
        (p0 p1 : Point3 α) (sb : Bool),
      getCollisionPointIn2DTwoPoints curveCollide2 sp p0 p1 sb = none) ∧
    (∀ (p0 p1 : Point3 α) (poly : List (Point3 α))
        (intersectS : LineSegment α → LineSegment α → Option α)
        (curveCollide : HermiteCurve α → List (Point3 α) → Bool → Option α) (sb : Bool),
      sp.controlPoints = [p0, p1] →
      (getLineSegments poly).filterMap
        (fun line => intersectS (⟨p0, p1⟩ : LineSegment α) line) ≠ [] →
      (getCollisionPointIn2DPolygon intersectS curveCollide sp poly sb).isSome = true) := by
  have hcur : sp.curves = [] := by
    rw [hwf.1]
    unfold catmullRomCurves
    rw [if_pos (by omega)]
  constructor
  · intro cc p0 p1 sb
    unfold getCollisionPointIn2DTwoPoints
    rw [hcur]
    cases sb <;> simp
  · intro p0 p1 poly intersectS curveCollide sb hcps hne
    obtain ⟨m, hm, _, _⟩ :=
      (collidePoly_two_spec lenOf intersectS curveCollide sp hwf p0 p1 hcps poly sb).2 hne
    rw [hm]
    rfl

/-- Witness for C10 at the concrete rational line spline `spTwoQ`. -/
theorem twopoint_collision_ignores_spline_kind_witness :
    (∀ (curveCollide2 : HermiteCurve ℚ → Point3 ℚ → Point3 ℚ → Bool → Option ℚ)
        (p0 p1 : Point3 ℚ) (sb : Bool),
      getCollisionPointIn2DTwoPoints curveCollide2 spTwoQ p0 p1 sb = none) ∧
    (∀ (p0 p1 : Point3 ℚ) (poly : List (Point3 ℚ))
        (intersectS : LineSegment ℚ → LineSegment ℚ → Option ℚ)
        (curveCollide : HermiteCurve ℚ → List (Point3 ℚ) → Bool → Option ℚ) (sb : Bool),
      spTwoQ.controlPoints = [p0, p1] →
      (getLineSegments poly).filterMap
        (fun line => intersectS (⟨p0, p1⟩ : LineSegment ℚ) line) ≠ [] →
      (getCollisionPointIn2DPolygon intersectS curveCollide spTwoQ poly sb).isSome = true) :=
  twopoint_collision_ignores_spline_kind unitLen spTwoQ spTwoQ_wellFormed (by decide)

theorem trajGoUp_spec {α : Type*} [LinearOrderedField α] [FloorRing α]
    (pointAt : α → Point3 α) (endS step : α) (hstep : 0 < step) :
    ∀ (fuel : ℕ) (s : α), (⌈(endS - s) / step⌉).toNat ≤ fuel →
      ∃ pts, trajGoUp pointAt endS step fuel s = some pts ∧
        pts.length = (⌈(endS - s) / step⌉).toNat + 1 ∧
        pts.getLast? = some (pointAt endS) := by
  intro fuel
  induction fuel with
  | zero =>
    intro s hf
    have hc0 : ⌈(endS - s) / step⌉ ≤ (0 : ℤ) := by omega
    have hx : (endS - s) / step ≤ 0 := by exact_mod_cast Int.ceil_le.mp hc0
    rw [div_le_iff hstep, zero_mul] at hx
    have hns : ¬ s < endS := by linarith
    refine ⟨[pointAt endS], by simp [trajGoUp, hns], ?_, by simp⟩
    have : (⌈(endS - s) / step⌉).toNat = 0 := by omega
    simp [this]
  | succ fuel ih =>
    intro s hf
    by_cases hs : s < endS
    · have hpos : 0 < (endS - s) / step := div_pos (by linarith) hstep
      have hm1 : 1 ≤ ⌈(endS - s) / step⌉ := by
        have := Int.ceil_pos.mpr hpos
        omega
      have hnext : ⌈(endS - (s + step)) / step⌉ = ⌈(endS - s) / step⌉ - 1 := by
        have harg : (endS - (s + step)) / step = (endS - s) / step - 1 := by
          field_simp
          ring
        rw [harg, Int.ceil_sub_one]
      have hf2 : (⌈(endS - (s + step)) / step⌉).toNat ≤ fuel := by
        rw [hnext]
        omega
      obtain ⟨pts, heq, hlen, hlast⟩ := ih (s + step) hf2
      refine ⟨pointAt s :: pts, ?_, ?_, ?_⟩
      · simp only [trajGoUp, if_pos hs, heq, Option.map_some']
      · simp only [List.length_cons, hlen, hnext]
        omega
      · cases pts with
        | nil => simp at hlen
        | cons b t =>
          rw [List.getLast?_cons_cons]
          simpa using hlast
    · have hle : endS - s ≤ 0 := by linarith
      have hx : (endS - s) / step ≤ 0 := by
        rw [div_le_iff hstep, zero_mul]
        exact hle
      have hc0 : ⌈(endS - s) / step⌉ ≤ (0 : ℤ) := by
        exact_mod_cast Int.ceil_le.mpr (by exact_mod_cast hx)
      refine ⟨[pointAt endS], by simp [trajGoUp, hs], ?_, by simp⟩
      have : (⌈(endS - s) / step⌉).toNat = 0 := by omega
      simp [this]

theorem trajGoDown_spec {α : Type*} [LinearOrderedField α] [FloorRing α]
    (pointAt : α → Point3 α) (endS step : α) (hstep : 0 < step) :
    ∀ (fuel : ℕ) (s : α), (⌈(s - endS) / step⌉).toNat ≤ fuel →
      ∃ pts, trajGoDown pointAt endS step fuel s = some pts ∧
        pts.length = (⌈(s - endS) / step⌉).toNat + 1 ∧
        pts.getLast? = some (pointAt endS) := by
  intro fuel
  induction fuel with
  | zero =>
    intro s hf
    have hc0 : ⌈(s - endS) / step⌉ ≤ (0 : ℤ) := by omega
    have hx : (s - endS) / step ≤ 0 := by exact_mod_cast Int.ceil_le.mp hc0
    rw [div_le_iff hstep, zero_mul] at hx
    have hns : ¬ s > endS := by
      simp only [gt_iff_lt, not_lt]
      linarith
    refine ⟨[pointAt endS], by simp [trajGoDown, hns], ?_, by simp⟩
    have : (⌈(s - endS) / step⌉).toNat = 0 := by omega
    simp [this]
  | succ fuel ih =>
    intro s hf
    by_cases hs : s > endS
    · have hpos : 0 < (s - endS) / step := div_pos (by linarith) hstep
      have hm1 : 1 ≤ ⌈(s - endS) / step⌉ := by
        have := Int.ceil_pos.mpr hpos
        omega
      have hnext : ⌈(s - step - endS) / step⌉ = ⌈(s - endS) / step⌉ - 1 := by
        have harg : (s - step - endS) / step = (s - endS) / step - 1 := by
          field_simp
          ring
        rw [harg, Int.ceil_sub_one]
      have hf2 : (⌈(s - step - endS) / step⌉).toNat ≤ fuel := by
        rw [hnext]
        omega
      obtain ⟨pts, heq, hlen, hlast⟩ := ih (s - step) hf2
      refine ⟨pointAt s :: pts, ?_, ?_, ?_⟩
      · simp only [trajGoDown, if_pos hs, heq, Option.map_some']
      · simp only [List.length_cons, hlen, hnext]
        omega
      · cases pts with
        | nil => simp at hlen
        | cons b t =>
          rw [List.getLast?_cons_cons]
          simpa using hlast
    · have hle : s - endS ≤ 0 := by
        simp only [gt_iff_lt, not_lt] at hs
        linarith
      have hx : (s - endS) / step ≤ 0 := by
        rw [div_le_iff hstep, zero_mul]
        exact hle
      have hc0 : ⌈(s - endS) / step⌉ ≤ (0 : ℤ) := by
        exact_mod_cast Int.ceil_le.mpr (by exact_mod_cast hx)
      refine ⟨[pointAt endS], by simp [trajGoDown, hs], ?_, by simp⟩
      have : (⌈(s - endS) / step⌉).toNat = 0 := by omega
      simp [this]

theorem trajGoUp_zero_step_none (pointAt : α → Point3 α) (endS s : α) (hs : s < endS) :
    ∀ fuel, trajGoUp pointAt endS 0 fuel s = none := by
  intro fuel
  induction fuel with
  | zero => simp [trajGoUp, hs]
  | succ n ih => simp [trajGoUp, hs, ih]

/-- The witness spline `spR` satisfies the construction invariant. -/
theorem spR_wellFormed : WellFormed unitLen spR := by
  unfold WellFormed
  refine ⟨rfl, rfl, rfl, rfl, ?_⟩
  intro l hl
  rw [show spR.lengthList = (catmullRomCurves cpsR).map unitLen from rfl, List.mem_map] at hl
  obtain ⟨c, _, rfl⟩ := hl
  exact zero_le_one

theorem CatmullRomSpline.getPointOffset_zero (sp : CatmullRomSpline ℝ) (s : ℝ) :
    sp.getPointOffset s 0 = sp.getPoint s := by
  unfold CatmullRomSpline.getPointOffset
  ext <;> simp

/-- C4 counterexample: with resolution exactly 0 and startS < endS the
trajectory loop never terminates (the claim quantifies over every resolution, so
the claim as stated is false at this input). -/
theorem trajectory_zero_resolution_diverges : ¬ TrajectoryTerminates spR 0 1 0 0 := by
  rintro ⟨fuel, pts, h⟩
  unfold CatmullRomSpline.getTrajectoryFuel at h
  rw [if_neg (by norm_num : ¬ (0 : ℝ) > 1), abs_zero,
    trajGoUp_zero_step_none _ _ _ (by norm_num) fuel] at h
  exact Option.noConfusion h

/-- C4 (amended): for every spline with n ≥ 3 control points and every startS,
endS, lateral offset and NONZERO resolution, the trajectory computation
terminates and returns a finite, fully materialized sequence whose final element
is the point at exactly endS. -/
theorem trajectory_terminates_with_exact_end (sp : CatmullRomSpline ℝ)
    (h3 : 3 ≤ sp.controlPoints.length) (startS endS resolution offset : ℝ)
    (hres : resolution ≠ 0) :
    ∃ fuel pts, sp.getTrajectoryFuel startS endS resolution offset fuel = some pts ∧
      pts ≠ [] ∧ pts.getLast? = some (sp.getPointOffset endS offset) := by
  have hstep : 0 < |resolution| := abs_pos.mpr hres
  by_cases hdir : startS > endS
  · obtain ⟨pts, heq, hlen, hlast⟩ := trajGoDown_spec (fun s => sp.getPointOffset s offset) endS
      |resolution| hstep ((⌈(startS - endS) / |resolution|⌉).toNat) startS le_rfl
    refine ⟨(⌈(startS - endS) / |resolution|⌉).toNat, pts, ?_, ?_, hlast⟩
    · unfold CatmullRomSpline.getTrajectoryFuel
      rw [if_pos hdir]
      exact heq
    · intro hnil
      rw [hnil] at hlen
      simp at hlen
  · obtain ⟨pts, heq, hlen, hlast⟩ := trajGoUp_spec (fun s => sp.getPointOffset s offset) endS
      |resolution| hstep ((⌈(endS - startS) / |resolution|⌉).toNat) startS le_rfl
    refine ⟨(⌈(endS - startS) / |resolution|⌉).toNat, pts, ?_, ?_, hlast⟩
    · unfold CatmullRomSpline.getTrajectoryFuel
      rw [if_neg hdir]
      exact heq
    · intro hnil
      rw [hnil] at hlen
      simp at hlen

/-- Witness for the amended C4 at the concrete real spline `spR`, resolution 1. -/
theorem trajectory_terminates_with_exact_end_witness :
    ∃ fuel pts, spR.getTrajectoryFuel 0 1 1 0 fuel = some pts ∧
      pts ≠ [] ∧ pts.getLast? = some (spR.getPointOffset 1 0) :=
  trajectory_terminates_with_exact_end spR (by norm_num [spR, cpsR]) 0 1 1 0 one_ne_zero

/-- C6: the full-curve trajectory with resolution 1 and offset 0 ends with the
point at totalLength and holds exactly ⌈totalLength⌉ + 1 points. -/
theorem trajectory_full_curve (lenOf : HermiteCurve ℝ → ℝ) (sp : CatmullRomSpline ℝ)
    (hwf : WellFormed lenOf sp) (h3 : 3 ≤ sp.controlPoints.length) :
    ∃ fuel pts, sp.getTrajectoryFuel 0 sp.totalLength 1 0 fuel = some pts ∧
      pts.getLast? = some (sp.getPoint sp.totalLength) ∧
      (pts.length : ℤ) = ⌈sp.totalLength⌉ + 1 := by
  have htot0 : 0 ≤ sp.totalLength := wf_totalLength_nonneg lenOf sp hwf
  have hstep : (0 : ℝ) < |(1 : ℝ)| := by norm_num
  obtain ⟨pts, heq, hlen, hlast⟩ := trajGoUp_spec (fun s => sp.getPointOffset s 0)
    sp.totalLength |(1 : ℝ)| hstep ((⌈(sp.totalLength - 0) / |(1 : ℝ)|⌉).toNat) 0 le_rfl
  refine ⟨(⌈(sp.totalLength - 0) / |(1 : ℝ)|⌉).toNat, pts, ?_, ?_, ?_⟩
  · unfold CatmullRomSpline.getTrajectoryFuel
    rw [if_neg (by simp [not_lt]; linarith : ¬ (0 : ℝ) > sp.totalLength)]
    exact heq
  · rw [hlast, CatmullRomSpline.getPointOffset_zero]
  · have harg : (sp.totalLength - 0) / |(1 : ℝ)| = sp.totalLength := by simp
    rw [harg] at hlen
    have hc : 0 ≤ ⌈sp.totalLength⌉ := Int.ceil_nonneg htot0
    rw [hlen]
    omega

/-- Witness for C6 at the concrete real spline `spR`. -/
theorem trajectory_full_curve_witness :
    ∃ fuel pts, spR.getTrajectoryFuel 0 spR.totalLength 1 0 fuel = some pts ∧
      pts.getLast? = some (spR.getPoint spR.totalLength) ∧
      (pts.length : ℤ) = ⌈spR.totalLength⌉ + 1 :=
  trajectory_full_curve unitLen spR spR_wellFormed (by norm_num [spR, cpsR])

theorem getD_map_range {β : Type*} [Inhabited β] (n : ℕ) (f : ℕ → β) (i : ℕ) (hi : i < n) :
    ((List.range n).map f).getD i default = f i := by
  rw [List.getD_eq_getElem?_getD, List.getElem?_map, List.getElem?_range hi, Option.map_some',
    Option.getD_some]

theorem dist3_offset (px py pz w zo theta : ℝ) :
    dist3 ⟨px - 0.5 * w * Real.cos theta, py - 0.5 * w * Real.sin theta, pz + zo⟩
      ⟨px + 0.5 * w * Real.cos theta, py + 0.5 * w * Real.sin theta, pz + zo⟩ = |w| := by
  unfold dist3
  have h1 : (px - 0.5 * w * Real.cos theta - (px + 0.5 * w * Real.cos theta)) ^ 2 +
      (py - 0.5 * w * Real.sin theta - (py + 0.5 * w * Real.sin theta)) ^ 2 +
      (pz + zo - (pz + zo)) ^ 2 = w ^ 2 * (Real.cos theta ^ 2 + Real.sin theta ^ 2) := by
    ring
  dsimp only
  rw [h1, Real.cos_sq_add_sin_sq, mul_one, Real.sqrt_sq_eq_abs]

theorem bounds_dist_abs (sp : CatmullRomSpline ℝ) (w zOffset : ℝ) (numPoints i : ℕ)
    (hi : i < numPoints + 1) :
    dist3 ((sp.getLeftBounds w numPoints zOffset).getD i default)
      ((sp.getRightBounds w numPoints zOffset).getD i default) = |w| := by
  unfold CatmullRomSpline.getLeftBounds CatmullRomSpline.getRightBounds
  rw [getD_map_range (numPoints + 1) _ i hi, getD_map_range (numPoints + 1) _ i hi]
  dsimp only
  exact dist3_offset _ _ _ w zOffset _

theorem getLeftBounds_getD (sp : CatmullRomSpline ℝ) (w zOffset : ℝ) (numPoints i : ℕ)
    (hi : i < numPoints + 1) :
    (sp.getLeftBounds w numPoints zOffset).getD i default =
      offsetPoint sp (-(w / 2)) zOffset (sp.totalLength / (numPoints : ℝ) * (i : ℝ)) := by
  unfold CatmullRomSpline.getLeftBounds offsetPoint
  rw [getD_map_range (numPoints + 1) _ i hi]
  dsimp only
  ext <;> ring

theorem getRightBounds_getD (sp : CatmullRomSpline ℝ) (w zOffset : ℝ) (numPoints i : ℕ)
    (hi : i < numPoints + 1) :
    (sp.getRightBounds w numPoints zOffset).getD i default =
      offsetPoint sp (w / 2) zOffset (sp.totalLength / (numPoints : ℝ) * (i : ℝ)) := by
  unfold CatmullRomSpline.getRightBounds offsetPoint
  rw [getD_map_range (numPoints + 1) _ i hi]
  dsimp only
  ext <;> ring

/-- C7 counterexample: at width −1 the distance between matching left/right
bound points is |−1| = 1, not −1, so the claim's "the distance equals w" read
over every width w is false at this concrete input. -/
theorem bounds_width_counterexample :
    dist3 ((spR.getLeftBounds (-1) 1 0).getD 0 default)
      ((spR.getRightBounds (-1) 1 0).getD 0 default) ≠ (-1 : ℝ) := by
  rw [bounds_dist_abs spR (-1) 0 1 0 (by norm_num)]
  norm_num

/-- C7 (amended): for every well-formed spline with n ≥ 3 control points, width
w, numPoints ≥ 1 and z offset, each bound list has numPoints + 1 points sampled
at the evenly spaced arc lengths i·totalLength/numPoints, the i-th left and
right points lie at offsets −w/2 and +w/2 along the heading direction of the
normal vector at that arc length, and the distance between them equals |w|
(hence w itself whenever w ≥ 0). -/
theorem bounds_sampling_and_width (lenOf : HermiteCurve ℝ → ℝ) (sp : CatmullRomSpline ℝ)
    (hwf : WellFormed lenOf sp) (h3 : 3 ≤ sp.controlPoints.length) (w zOffset : ℝ)
    (numPoints : ℕ) (hnp : 1 ≤ numPoints) :
    (sp.getLeftBounds w numPoints zOffset).length = numPoints + 1 ∧
    (sp.getRightBounds w numPoints zOffset).length = numPoints + 1 ∧
    ∀ i, i ≤ numPoints →
      (sp.getLeftBounds w numPoints zOffset).getD i default =
        offsetPoint sp (-(w / 2)) zOffset (sp.totalLength / (numPoints : ℝ) * (i : ℝ)) ∧
      (sp.getRightBounds w numPoints zOffset).getD i default =
        offsetPoint sp (w / 2) zOffset (sp.totalLength / (numPoints : ℝ) * (i : ℝ)) ∧
      dist3 ((sp.getLeftBounds w numPoints zOffset).getD i default)
        ((sp.getRightBounds w numPoints zOffset).getD i default) = |w| := by
  refine ⟨by simp [CatmullRomSpline.getLeftBounds],
    by simp [CatmullRomSpline.getRightBounds], ?_⟩
  intro i hi
  have hib : i < numPoints + 1 := by omega
  exact ⟨getLeftBounds_getD sp w zOffset numPoints i hib,
    getRightBounds_getD sp w zOffset numPoints i hib,
    bounds_dist_abs sp w zOffset numPoints i hib⟩

/-- Witness for the amended C7 at the concrete real spline `spR`, width 2,
numPoints 1, z offset 0. -/
theorem bounds_sampling_and_width_witness :
    (spR.getLeftBounds 2 1 0).length = 1 + 1 ∧
    (spR.getRightBounds 2 1 0).length = 1 + 1 ∧
    ∀ i, i ≤ 1 →
      (spR.getLeftBounds 2 1 0).getD i default =
        offsetPoint spR (-(2 / 2)) 0 (spR.totalLength / ((1 : ℕ) : ℝ) * (i : ℝ)) ∧
      (spR.getRightBounds 2 1 0).getD i default =
        offsetPoint spR (2 / 2) 0 (spR.totalLength / ((1 : ℕ) : ℝ) * (i : ℝ)) ∧
      dist3 ((spR.getLeftBounds 2 1 0).getD i default)
        ((spR.getRightBounds 2 1 0).getD i default) = |(2 : ℝ)| :=
  bounds_sampling_and_width unitLen spR spR_wellFormed (by norm_num [spR, cpsR]) 2 0 1 le_rfl

theorem HermiteCurve.sampledLength_nonneg (c : HermiteCurve ℝ) (num : ℕ) :
    0 ≤ c.sampledLength num := by
  unfold HermiteCurve.sampledLength
  apply Finset.sum_nonneg
  intro k hk
  unfold dist3
  exact Real.sqrt_nonneg _

theorem pointEquals_refl (p : Point3 α) : pointEquals p p = true := by
  unfold pointEquals
  simp [sub_self, abs_zero, (floatEps_nonneg (α := α)).not_lt]

theorem checkConnection_construction (lenOf : HermiteCurve α → α) (cps : List (Point3 α))
    (h3 : 3 ≤ cps.length) :
    checkConnection ⟨cps, catmullRomCurves cps, getLineSegments cps,
      (catmullRomCurves cps).map lenOf, ((catmullRomCurves cps).map lenOf).sum⟩ = true := by
  unfold checkConnection
  have hlen := catmullRomCurves_length cps h3
  dsimp only
  have hcount : ¬ cps.length ≠ (catmullRomCurves cps).length + 1 := by omega
  rw [if_neg hcount]
  have hall : (List.range (catmullRomCurves cps).length).all (fun i =>
      pointEquals (cps.getD i default) (((catmullRomCurves cps).getD i default).getPoint 0) &&
      pointEquals (cps.getD (i + 1) default)
        (((catmullRomCurves cps).getD i default).getPoint 1)) = true := by
    rw [List.all_eq_true]
    intro i hi
    rw [List.mem_range, hlen] at hi
    rw [catmullRomCurves_getD cps h3 i hi, buildCurve_getPoint_zero, buildCurve_getPoint_one,
      show ctrlPt cps i = cps.getD i default from rfl,
      show ctrlPt cps (i + 1) = cps.getD (i + 1) default from rfl,
      pointEquals_refl, pointEquals_refl]
    rfl
  rw [if_pos hall]
  have hne : (catmullRomCurves cps).isEmpty = false := by
    cases h : catmullRomCurves cps with
    | nil =>
      rw [h] at hlen
      simp at hlen
      omega
    | cons a l => rfl
  have hni : ¬ ((catmullRomCurves cps).isEmpty = true) := by
    rw [hne]
    simp
  rw [if_neg hni]

theorem mkSpline_ok_wellFormed (lenOf : HermiteCurve α → α) (hnn : ∀ c, 0 ≤ lenOf c)
    (cps : List (Point3 α)) (hne : cps ≠ []) :
    ∃ sp, mkSpline lenOf cps = Except.ok sp ∧ WellFormed lenOf sp ∧
      sp.controlPoints = cps := by
  have h0 : ¬ cps.length = 0 := by simpa using hne
  refine ⟨⟨cps, catmullRomCurves cps, getLineSegments cps, (catmullRomCurves cps).map lenOf,
    ((catmullRomCurves cps).map lenOf).sum⟩, ?_, ?_, rfl⟩
  · unfold mkSpline
    rw [if_neg h0]
    dsimp only
    by_cases h3 : 3 ≤ cps.length
    · rw [if_pos h3, if_pos (checkConnection_construction lenOf cps h3)]
    · rw [if_neg h3]
  · unfold WellFormed
    refine ⟨rfl, rfl, rfl, rfl, ?_⟩
    intro l hl
    rw [List.mem_map] at hl
    obtain ⟨c, _, rfl⟩ := hl
    exact hnn c
